import Mathlib

/-
Verification of the computational-graph autograd engine
(src/computatoalgraph.c) against its specification.

The C program manipulates heap-allocated `Value` nodes through pointers.
We embed it shallowly: a heap is an association list from addresses
(naturals, standing for the pointer values returned by malloc) to nodes,
and every mutating C function becomes an explicit heap-transforming
function.  Doubles are modelled as rationals; the only transcendental the
claims exercise is C `pow` at integer exponents with exactly representable
operands and results, where IEEE-754 `pow` is exact and agrees with the
rational model `cpow` below.
-/

namespace CG

/-- The operator kind of a node.  In the C source this is implicit in the
`backward` function pointer installed by each op function (`_backward_add`,
`_backward_mul`, `_backward_pow`, `_backward_exp`, `_backward_relu`);
`leaf` models a NULL `backward` pointer. -/
inductive Op
  | leaf
  | add
  | mul
  | pow
  | exp1
  | relu
deriving DecidableEq

/-- Embeds `struct Value`: forward value `data`, accumulated gradient
`grad`, the operand addresses `children` (the C `children` array of
length `num_children`), and the operator tag `op` standing for the
`backward` function pointer. -/
structure Value where
  data : ℚ
  grad : ℚ
  children : List Nat
  op : Op
deriving DecidableEq

/-- A heap: finite map from addresses to nodes, as an association list. -/
abbrev Heap := List (Nat × Value)

/-- Dereference an address (first matching entry). `none` models a pointer
that does not point at a live node. -/
def hget : Heap → Nat → Option Value
  | [], _ => none
  | p :: t, a => if p.1 = a then some p.2 else hget t a

/-- Store a node at an address that is already allocated (writing through
a pointer).  Writing to an absent address is a no-op. -/
def hset : Heap → Nat → Value → Heap
  | [], _, _ => []
  | p :: t, a, v => if p.1 = a then (a, v) :: hset t a v else p :: hset t a v

/-- Reads `v->data`, defaulting to 0 at a dangling address (never exercised by
the claims, which only dereference live nodes). -/
def dataD (h : Heap) (a : Nat) : ℚ := ((hget h a).map Value.data).getD 0

/-- Reads `v->grad`, defaulting to 0 at a dangling address. -/
def gradD (h : Heap) (a : Nat) : ℚ := ((hget h a).map Value.grad).getD 0

/-- Reads `v->children`, defaulting to the empty list at a dangling address. -/
def childrenOf (h : Heap) (a : Nat) : List Nat :=
  ((hget h a).map Value.children).getD []

/-- Performs `v->grad = g` (assignment through a pointer). -/
def setGrad (h : Heap) (a : Nat) (g : ℚ) : Heap :=
  match hget h a with
  | none => h
  | some v => hset h a { v with grad := g }

/-- Performs `v->grad += d` (accumulation through a pointer). -/
def bumpGrad (h : Heap) (a : Nat) (d : ℚ) : Heap :=
  match hget h a with
  | none => h
  | some v => hset h a { v with grad := v.grad + d }

/-- Models C `pow` on doubles, restricted to the cases the program's
claims exercise: when the exponent is an integer the result is the exact
integer power (IEEE-754 `pow` is exact there for the small operands in
play); at non-integer exponents the model returns 0 (no claim evaluates
`pow` at a non-integer exponent). -/
def cpow (b e : ℚ) : ℚ := if e.den = 1 then b ^ e.num else 0

/-- Graph-construction state: the heap built so far plus the next fresh
address the allocator hands out.  Node identity in the model is the
allocation address, handed out sequentially. -/
structure GState where
  heap : Heap
  next : Nat

/-- Allocate a fresh node (successful `malloc` path of `new_value`,
followed by the caller installing its backward function, modelled by the
`op` tag).  Returns the new state and the new node's address. -/
def mkNode (st : GState) (d : ℚ) (children : List Nat) (op : Op) :
    GState × Nat :=
  (⟨st.heap ++ [(st.next, ⟨d, 0, children, op⟩)], st.next + 1⟩, st.next)

/-- Embeds `new_value(data, NULL, 0)` as used for leaves: zero gradient, no
children, NULL backward pointer. -/
def new_value (st : GState) (d : ℚ) : GState × Nat :=
  mkNode st d [] Op.leaf

/-- Embeds `add(a, b)`: forward value `a->data + b->data`, children `[a, b]`,
backward rule `_backward_add`. -/
def add (st : GState) (a b : Nat) : GState × Nat :=
  mkNode st (dataD st.heap a + dataD st.heap b) [a, b] Op.add

/-- Embeds `mul(a, b)`: forward value `a->data * b->data`, children `[a, b]`,
backward rule `_backward_mul`. -/
def mul (st : GState) (a b : Nat) : GState × Nat :=
  mkNode st (dataD st.heap a * dataD st.heap b) [a, b] Op.mul

/-- Embeds `my_pow(base, exp_val)`: forward value `pow(base->data,
exp_val->data)`, children `[base, exp_val]`, backward rule
`_backward_pow`. -/
def my_pow (st : GState) (b e : Nat) : GState × Nat :=
  mkNode st (cpow (dataD st.heap b) (dataD st.heap e)) [b, e] Op.pow

/-- Embeds `my_exp(a)`: forward value `exp(a->data)`, children `[a]`, backward
rule `_backward_exp`.  The real exponential is not rational, so the
forward evaluation function is passed explicitly; no claim depends on
its values. -/
def my_exp (expf : ℚ → ℚ) (st : GState) (a : Nat) : GState × Nat :=
  mkNode st (expf (dataD st.heap a)) [a] Op.exp1

/-- Embeds `relu(a)`: forward value `a->data > 0.0 ? a->data : 0.0`, children
`[a]`, backward rule `_backward_relu`. -/
def relu (st : GState) (a : Nat) : GState × Nat :=
  mkNode st (if dataD st.heap a > 0 then dataD st.heap a else 0) [a] Op.relu

/-- State threaded through `build_topo`: the emitted order `topo` and the
`visited` array, represented as the list of indices set to 1.  The C code
indexes `visited` by `(long)v % 100` — the pointer value reduced mod 100 —
so the marks live on residues, not on exact node identities. -/
structure TopoSt where
  topo : List Nat
  visited : List Nat

/-- Embeds `build_topo`: if `visited[(long)v % 100]` is set, return;
otherwise mark that residue, recurse into the children in order, then
append the node.  `fuel` bounds the recursion depth only: every
non-returning call marks one of the 100 residues, so the true recursion
depth never exceeds 101 and any fuel of at least 101 computes exactly the
C function (the fuel-exhaustion branch is unreachable then). -/
def buildTopoFuel : Nat → Heap → Nat → TopoSt → TopoSt
  | 0, _, _, st => st
  | n + 1, h, a, st =>
    if a % 100 ∈ st.visited then st
    else
      let st1 := (childrenOf h a).foldl
        (fun s c => buildTopoFuel n h c s) ⟨st.topo, a % 100 :: st.visited⟩
      ⟨st1.topo ++ [a], st1.visited⟩

/-- One iteration of the reverse loop in `backward`:
`topo[i]->backward(topo[i])`, dispatched on the installed backward rule.
Each C statement reads current memory, so the second `+=` of `add`/`mul`
re-reads through the heap produced by the first. -/
def backwardStep (h : Heap) (a : Nat) : Heap :=
  match hget h a with
  | none => h
  | some v =>
    match v.op with
    | Op.leaf => h
    | Op.add =>
      match v.children with
      | c0 :: c1 :: _ =>
        let h1 := bumpGrad h c0 (gradD h a)
        bumpGrad h1 c1 (gradD h1 a)
      | _ => h
    | Op.mul =>
      match v.children with
      | c0 :: c1 :: _ =>
        let h1 := bumpGrad h c0 (dataD h c1 * gradD h a)
        bumpGrad h1 c1 (dataD h1 c0 * gradD h1 a)
      | _ => h
    | Op.pow =>
      match v.children with
      | c0 :: c1 :: _ =>
        bumpGrad h c0 ((dataD h c1 * cpow (dataD h c0) (dataD h c1 - 1)) *
          gradD h a)
      | _ => h
    | Op.exp1 =>
      match v.children with
      | c0 :: _ => bumpGrad h c0 (v.data * v.grad)
      | _ => h
    | Op.relu =>
      match v.children with
      | c0 :: _ => bumpGrad h c0 ((if v.data > 0 then (1 : ℚ) else 0) * v.grad)
      | _ => h

/-- Embeds `backward`: build the topological order, seed the root's
gradient with the assignment `v->grad = 1.0`, then run the backward rules
over the order in reverse.  Fuel 101 is exact (see `buildTopoFuel`). -/
def backward (h : Heap) (root : Nat) : Heap :=
  let st := buildTopoFuel 101 h root ⟨[], []⟩
  let h1 := setGrad h root 1
  st.topo.reverse.foldl backwardStep h1

/-- Embeds `zero_grad_graph`: `if (v == NULL) return; v->grad = 0.0;`
then recurse into every child — with no visited tracking of any kind.
The C recursion is unbounded on cyclic graphs, so the embedding carries
fuel and returns `none` when the bound is hit; on graphs where the C
function terminates, a sufficiently large fuel returns `some` of the
final heap. -/
def zeroGradFuel : Nat → Heap → Nat → Option Heap
  | 0, _, _ => none
  | n + 1, h, a =>
    match hget h a with
    | none => some h
    | some v =>
      v.children.foldlM (fun hh c => zeroGradFuel n hh c) (setGrad h a 0)

/-- The same recursion as `zeroGradFuel`, additionally recording the
sequence of node addresses on which `v->grad = 0.0` executes.  Gradient
writes never change `children`, so the control flow is identical. -/
def zeroGradT : Nat → Heap → Nat → Option (Heap × List Nat)
  | 0, _, _ => none
  | n + 1, h, a =>
    match hget h a with
    | none => some (h, [])
    | some v =>
      v.children.foldlM
        (fun p c => (zeroGradT n p.1 c).map (fun q => (q.1, p.2 ++ q.2)))
        (setGrad h a 0, [a])

/-- Outcome of `new_value`: either a constructed node or process
termination (`exit(code)`). -/
inductive NewValueResult
  | node (v : Value)
  | exited (code : Nat)
deriving DecidableEq

/-- Embeds the control flow of `new_value` with the two `malloc` outcomes
supplied as oracles: if the node allocation fails, `perror` then
`exit(1)`; if there are children and the children-array allocation fails,
`free(v)` then `exit(1)`; otherwise the node is returned with zero
gradient and NULL backward pointer. -/
def new_value_alloc (mallocOk childrenMallocOk : Bool) (d : ℚ)
    (children : List Nat) : NewValueResult :=
  if mallocOk = false then NewValueResult.exited 1
  else if children.length = 0 then NewValueResult.node ⟨d, 0, [], Op.leaf⟩
  else if childrenMallocOk = false then NewValueResult.exited 1
  else NewValueResult.node ⟨d, 0, children, Op.leaf⟩

/- ------------------------------------------------------------------
Concrete graphs used by the claims.
------------------------------------------------------------------ -/

/-- The spec §8 graph `rectify(add(multiply(a,b), power(c,e)))` with
leaves a=2.0 (address 0), b=3.0 (1), c=-2.0 (2), e=2.0 (3); then
mul=4, pow=5, add=6, relu root=7. -/
def gC2 : GState :=
  let pa := new_value ⟨[], 0⟩ 2
  let pb := new_value pa.1 3
  let pc := new_value pb.1 (-2)
  let pe := new_value pc.1 2
  let pm := mul pe.1 pa.2 pb.2
  let pp := my_pow pm.1 pc.2 pe.2
  let ps := add pp.1 pm.2 pp.2
  (relu ps.1 ps.2).1

def hC2 : Heap := gC2.heap

/-- Leaf x=5.0 at address 0, `y = add(x, x)` at address 1. -/
def gC8 : GState :=
  let px := new_value ⟨[], 0⟩ 5
  (add px.1 px.2 px.2).1

def hC8 : Heap := gC8.heap

/-- Leaf x=-3.0 at address 0, `y = relu(x)` at address 1. -/
def gC9 : GState :=
  let px := new_value ⟨[], 0⟩ (-3)
  (relu px.1 px.2).1

def hC9 : Heap := gC9.heap

/-- Leaf x=5.0 (0), s=add(x,x) (1), f=relu(s) (2): a depth-2 graph with a
shared operand. -/
def gC10 : GState :=
  let px := new_value ⟨[], 0⟩ 5
  let ps := add px.1 px.2 px.2
  (relu ps.1 ps.2).1

def hC10 : Heap := gC10.heap

/-- A two-node graph whose malloc addresses are congruent mod 100: the
root at address 105 consumes the leaf at address 5.  Both hash to
`visited[5]`. -/
def hC1 : Heap :=
  [(105, ⟨1, 0, [5], Op.relu⟩), (5, ⟨1, 0, [], Op.leaf⟩)]

/-- A two-node cyclic graph: 0 → 1 → 0 (each node the sole operand of the
other). -/
def hCyc : Heap :=
  [(0, ⟨1, 0, [1], Op.relu⟩), (1, ⟨1, 0, [0], Op.relu⟩)]

/- ------------------------------------------------------------------
Graph-shape machinery: reachability along operand edges, the immutable
part of a node, and acyclicity.
------------------------------------------------------------------ -/

/-- The part of a node the spec calls immutable after construction:
value, operand list and operator. -/
def shape (v : Value) : ℚ × List Nat × Op := (v.data, v.children, v.op)

/-- Two heaps agree on every node's immutable part (only gradients may
differ). -/
def SameShape (h h' : Heap) : Prop :=
  ∀ a, (hget h' a).map shape = (hget h a).map shape

/-- Node `b` is reachable from `a` along operand edges in `h`. -/
inductive Reach (h : Heap) : Nat → Nat → Prop
  | refl (a : Nat) : Reach h a a
  | step {a c b : Nat} (v : Value) (hv : hget h a = some v)
      (hc : c ∈ v.children) (hr : Reach h c b) : Reach h a b

/-- Acyclicity, in the form in which every graph built by the op
functions satisfies it: operands are always allocated before their
consumers, so every operand edge decreases the address. -/
def Ordered (h : Heap) : Prop :=
  ∀ a v, hget h a = some v → ∀ c ∈ v.children, c < a

/-- Executable check for `Ordered`. -/
def orderedb (h : Heap) : Bool :=
  h.all fun p =>
    match hget h p.1 with
    | none => true
    | some v => v.children.all fun c => decide (c < p.1)

theorem hget_mem {h : Heap} {a : Nat} {v : Value} (hv : hget h a = some v) :
    (a, v) ∈ h := by
  induction h with
  | nil => simp [hget] at hv
  | cons p t ih =>
    by_cases hp : p.1 = a
    · rw [hget, if_pos hp] at hv
      cases hv
      rw [← hp, Prod.mk.eta]
      exact List.mem_cons_self p t
    · rw [hget, if_neg hp] at hv
      exact List.mem_cons_of_mem p (ih hv)

theorem ordered_of_orderedb {h : Heap} (hb : orderedb h = true) : Ordered h := by
  intro a v hv c hc
  have hall := List.all_eq_true.mp hb (a, v) (hget_mem hv)
  simp only [hv] at hall
  exact of_decide_eq_true (List.all_eq_true.mp hall c hc)

theorem hget_hset_ne (h : Heap) (a b : Nat) (v : Value) (hne : b ≠ a) :
    hget (hset h a v) b = hget h b := by
  induction h with
  | nil => rfl
  | cons p t ih =>
    by_cases hp : p.1 = a
    · rw [hset, if_pos hp, hget, if_neg (fun he => hne he.symm), hget, hp,
        if_neg (fun he => hne he.symm)]
      exact ih
    · rw [hset, if_neg hp, hget, hget]
      by_cases hpb : p.1 = b
      · rw [if_pos hpb, if_pos hpb]
      · rw [if_neg hpb, if_neg hpb]
        exact ih

theorem hget_hset_self (h : Heap) (a : Nat) (v w : Value)
    (hw : hget h a = some w) : hget (hset h a v) a = some v := by
  induction h with
  | nil => simp [hget] at hw
  | cons p t ih =>
    by_cases hp : p.1 = a
    · rw [hset, if_pos hp, hget, if_pos rfl]
    · rw [hget, if_neg hp] at hw
      rw [hset, if_neg hp, hget, if_neg hp]
      exact ih hw

theorem sameShape_refl (h : Heap) : SameShape h h := fun _ => rfl

theorem sameShape_trans {h h1 h2 : Heap} (s1 : SameShape h h1)
    (s2 : SameShape h1 h2) : SameShape h h2 :=
  fun a => (s2 a).trans (s1 a)

theorem setGrad_sameShape (h : Heap) (a : Nat) (g : ℚ) :
    SameShape h (setGrad h a g) := by
  unfold setGrad
  cases hv : hget h a with
  | none => exact sameShape_refl h
  | some v =>
    intro b
    by_cases hb : b = a
    · subst hb
      rw [hget_hset_self h b _ v hv, hv]
      rfl
    · rw [hget_hset_ne h a b _ hb]

theorem bumpGrad_sameShape (h : Heap) (a : Nat) (d : ℚ) :
    SameShape h (bumpGrad h a d) := by
  unfold bumpGrad
  cases hv : hget h a with
  | none => exact sameShape_refl h
  | some v =>
    intro b
    by_cases hb : b = a
    · subst hb
      rw [hget_hset_self h b _ v hv, hv]
      rfl
    · rw [hget_hset_ne h a b _ hb]

theorem sameShape_children {h h' : Heap} (hs : SameShape h h') {a : Nat}
    {v : Value} (hv : hget h a = some v) :
    ∃ v', hget h' a = some v' ∧ v'.data = v.data ∧
      v'.children = v.children ∧ v'.op = v.op := by
  have hsa := hs a
  rw [hv] at hsa
  cases hv' : hget h' a with
  | none => rw [hv'] at hsa; cases hsa
  | some v' =>
    rw [hv'] at hsa
    have := Option.some.inj hsa
    refine ⟨v', rfl, ?_, ?_, ?_⟩
    · exact congrArg Prod.fst this
    · exact congrArg (fun p => p.2.1) this
    · exact congrArg (fun p => p.2.2) this

theorem sameShape_childrenMap {h h' : Heap} (hs : SameShape h h') (x : Nat) :
    (hget h' x).map Value.children = (hget h x).map Value.children := by
  cases hv : hget h x with
  | none =>
    have hsx := hs x
    rw [hv] at hsx
    cases hv' : hget h' x with
    | none => rfl
    | some v' => rw [hv'] at hsx; cases hsx
  | some v =>
    obtain ⟨v', hv', _, hch, _⟩ := sameShape_children hs hv
    rw [hv']
    simp [hch]

theorem reach_sameShape {h h' : Heap} (hs : SameShape h h') {a b : Nat}
    (hr : Reach h a b) : Reach h' a b := by
  induction hr with
  | refl a => exact Reach.refl a
  | step v hv hc _ ih =>
    obtain ⟨v', hv', _, hch, _⟩ := sameShape_children hs hv
    exact Reach.step v' hv' (hch ▸ hc) ih

theorem ordered_sameShape {h h' : Heap} (hs : SameShape h h')
    (ho : Ordered h) : Ordered h' := by
  intro a v' hv' c hc
  have hsa := hs a
  rw [hv'] at hsa
  cases hv : hget h a with
  | none => rw [hv] at hsa; cases hsa
  | some v =>
    rw [hv] at hsa
    have hch : v'.children = v.children :=
      congrArg (fun p => p.2.1) (Option.some.inj hsa)
    exact ho a v hv c (hch ▸ hc)

/- ------------------------------------------------------------------
What `zero_grad_graph` writes: only gradient zeroes.
------------------------------------------------------------------ -/

/-- Heap `h'` differs from `h` at most by some gradients having been
overwritten with 0. -/
def ZeroWrite (h h' : Heap) : Prop :=
  ∀ b, hget h' b = hget h b ∨
    ∃ v, hget h b = some v ∧ hget h' b = some { v with grad := 0 }

theorem zeroWrite_refl (h : Heap) : ZeroWrite h h := fun _ => Or.inl rfl

theorem zeroWrite_trans {h h1 h2 : Heap} (z1 : ZeroWrite h h1)
    (z2 : ZeroWrite h1 h2) : ZeroWrite h h2 := by
  intro b
  rcases z2 b with he | ⟨u, hu, hu'⟩
  · rcases z1 b with he1 | ⟨v, hv, hv'⟩
    · exact Or.inl (he.trans he1)
    · exact Or.inr ⟨v, hv, he.trans hv'⟩
  · rcases z1 b with he1 | ⟨v, hv, hv'⟩
    · exact Or.inr ⟨u, he1 ▸ hu, hu'⟩
    · refine Or.inr ⟨v, hv, ?_⟩
      rw [hv'] at hu
      cases Option.some.inj hu
      exact hu'

theorem zeroWrite_sameShape {h h' : Heap} (z : ZeroWrite h h') :
    SameShape h h' := by
  intro b
  rcases z b with he | ⟨v, hv, hv'⟩
  · rw [he]
  · rw [hv, hv']
    rfl

theorem zeroWrite_setGrad (h : Heap) (a : Nat) : ZeroWrite h (setGrad h a 0) := by
  unfold setGrad
  cases hv : hget h a with
  | none => exact zeroWrite_refl h
  | some v =>
    intro b
    by_cases hb : b = a
    · subst hb
      exact Or.inr ⟨v, hv, hget_hset_self h b _ v hv⟩
    · exact Or.inl (hget_hset_ne h a b _ hb)

theorem setGrad_hget_self {h : Heap} {a : Nat} {v : Value}
    (hv : hget h a = some v) (g : ℚ) :
    hget (setGrad h a g) a = some { v with grad := g } := by
  simp only [setGrad, hv]
  exact hget_hset_self h a _ v hv

/- ------------------------------------------------------------------
Soundness of `zero_grad_graph` on acyclic heaps.
------------------------------------------------------------------ -/

/-- At fuel `n`, `zero_grad_graph` started on a node below the fuel
bound in an ordered heap terminates, writes nothing but gradient zeroes,
and zeroes the gradient of every reachable node. -/
def ZG (n : Nat) : Prop :=
  ∀ h a, Ordered h → a < n →
    ∃ h', zeroGradFuel n h a = some h' ∧ ZeroWrite h h' ∧
      ∀ b, Reach h a b → ∀ w, hget h' b = some w → w.grad = 0

/-- The corresponding statement for the child loop of
`zero_grad_graph`. -/
def ZGL (n : Nat) : Prop :=
  ∀ (l : List Nat) (h : Heap), Ordered h → (∀ c ∈ l, c < n) →
    ∃ h', l.foldlM (fun hh c => zeroGradFuel n hh c) h = some h' ∧
      ZeroWrite h h' ∧
      ∀ c ∈ l, ∀ b, Reach h c b → ∀ w, hget h' b = some w → w.grad = 0

theorem zg_main : ∀ n, ZG n ∧ ZGL n := by
  intro n
  induction n with
  | zero =>
    constructor
    · intro h a _ ha
      exact absurd ha (Nat.not_lt_zero a)
    · intro l h _ hb
      cases l with
      | nil =>
        refine ⟨h, rfl, zeroWrite_refl h, ?_⟩
        intro c hc
        exact absurd hc (List.not_mem_nil c)
      | cons c cs =>
        exact absurd (hb c (List.mem_cons_self c cs)) (Nat.not_lt_zero c)
  | succ n ih =>
    have hZG : ZG (n + 1) := by
      intro h a ho ha
      cases hv : hget h a with
      | none =>
        refine ⟨h, by simp [zeroGradFuel, hv], zeroWrite_refl h, ?_⟩
        intro b hr w hw
        cases hr with
        | refl => rw [hv] at hw; cases hw
        | step v hv' hc hr' => rw [hv] at hv'; cases hv'
      | some v =>
        have hbound : ∀ c ∈ v.children, c < n := by
          intro c hc
          have := ho a v hv c hc
          omega
        have ho1 : Ordered (setGrad h a 0) :=
          ordered_sameShape (setGrad_sameShape h a 0) ho
        obtain ⟨h', hfold, zw1, hz⟩ := ih.2 v.children (setGrad h a 0) ho1 hbound
        refine ⟨h', ?_, zeroWrite_trans (zeroWrite_setGrad h a) zw1, ?_⟩
        · simp only [zeroGradFuel, hv]
          exact hfold
        · intro b hr w hw
          cases hr with
          | refl =>
            rcases zw1 a with he | ⟨u, _, hu'⟩
            · rw [he, setGrad_hget_self hv 0] at hw
              cases hw
              rfl
            · rw [hu'] at hw
              cases hw
              rfl
          | step v' hv' hc hr' =>
            rw [hv] at hv'
            cases hv'
            exact hz _ hc b (reach_sameShape (setGrad_sameShape h a 0) hr') w hw
    refine ⟨hZG, ?_⟩
    intro l
    induction l with
    | nil =>
      intro h _ _
      refine ⟨h, rfl, zeroWrite_refl h, ?_⟩
      intro c hc
      exact absurd hc (List.not_mem_nil c)
    | cons c cs ihl =>
      intro h ho hb
      obtain ⟨h1, h1eq, zw1, hz1⟩ := hZG h c ho (hb c (List.mem_cons_self c cs))
      have ho1 : Ordered h1 := ordered_sameShape (zeroWrite_sameShape zw1) ho
      have hbcs : ∀ c' ∈ cs, c' < n + 1 := fun c' hc' =>
        hb c' (List.mem_cons_of_mem c hc')
      obtain ⟨h', h'eq, zw2, hz2⟩ := ihl h1 ho1 hbcs
      refine ⟨h', ?_, zeroWrite_trans zw1 zw2, ?_⟩
      · simp only [List.foldlM_cons]
        rw [h1eq]
        simpa using h'eq
      · intro c' hc' b hr w hw
        rcases List.mem_cons.mp hc' with hcc | hcs
        · subst hcc
          rcases zw2 b with he | ⟨u, _, hu'⟩
          · rw [he] at hw
            exact hz1 b hr w hw
          · rw [hu'] at hw
            cases hw
            rfl
        · exact hz2 c' hcs b (reach_sameShape (zeroWrite_sameShape zw1) hr) w hw

/- ------------------------------------------------------------------
Divergence of `zero_grad_graph` on the two-node cycle.
------------------------------------------------------------------ -/

theorem cyc_diverges_aux :
    ∀ (n : Nat) (h : Heap),
      (hget h 0).map Value.children = some [1] →
      (hget h 1).map Value.children = some [0] →
      zeroGradFuel n h 0 = none ∧ zeroGradFuel n h 1 = none := by
  intro n
  induction n with
  | zero => intro h _ _; exact ⟨rfl, rfl⟩
  | succ n ih =>
    intro h h0 h1
    obtain ⟨v0, hv0, hch0⟩ : ∃ v0, hget h 0 = some v0 ∧ v0.children = [1] := by
      cases hv : hget h 0 with
      | none => rw [hv] at h0; cases h0
      | some v => rw [hv] at h0; exact ⟨v, rfl, Option.some.inj h0⟩
    obtain ⟨v1, hv1, hch1⟩ : ∃ v1, hget h 1 = some v1 ∧ v1.children = [0] := by
      cases hv : hget h 1 with
      | none => rw [hv] at h1; cases h1
      | some v => rw [hv] at h1; exact ⟨v, rfl, Option.some.inj h1⟩
    constructor
    · have hp0 : (hget (setGrad h 0 0) 0).map Value.children = some [1] :=
        (sameShape_childrenMap (setGrad_sameShape h 0 0) 0).trans h0
      have hp1 : (hget (setGrad h 0 0) 1).map Value.children = some [0] :=
        (sameShape_childrenMap (setGrad_sameShape h 0 0) 1).trans h1
      have hrec := (ih (setGrad h 0 0) hp0 hp1).2
      simp [zeroGradFuel, hv0, hch0, hrec]
    · have hp0 : (hget (setGrad h 1 0) 0).map Value.children = some [1] :=
        (sameShape_childrenMap (setGrad_sameShape h 1 0) 0).trans h0
      have hp1 : (hget (setGrad h 1 0) 1).map Value.children = some [0] :=
        (sameShape_childrenMap (setGrad_sameShape h 1 0) 1).trans h1
      have hrec := (ih (setGrad h 1 0) hp0 hp1).1
      simp [zeroGradFuel, hv1, hch1, hrec]

/- ------------------------------------------------------------------
Frame property of `backward`: only gradients change.
------------------------------------------------------------------ -/

theorem backwardStep_sameShape (h : Heap) (a : Nat) :
    SameShape h (backwardStep h a) := by
  unfold backwardStep
  split
  · exact sameShape_refl h
  · split
    · exact sameShape_refl h
    · split
      · exact sameShape_trans (bumpGrad_sameShape h _ _)
          (bumpGrad_sameShape _ _ _)
      · exact sameShape_refl h
    · split
      · exact sameShape_trans (bumpGrad_sameShape h _ _)
          (bumpGrad_sameShape _ _ _)
      · exact sameShape_refl h
    · split
      · exact bumpGrad_sameShape h _ _
      · exact sameShape_refl h
    · split
      · exact bumpGrad_sameShape h _ _
      · exact sameShape_refl h
    · split
      · exact bumpGrad_sameShape h _ _
      · exact sameShape_refl h

theorem foldl_backwardStep_sameShape (l : List Nat) (h : Heap) :
    SameShape h (l.foldl backwardStep h) := by
  induction l generalizing h with
  | nil => exact sameShape_refl h
  | cons c cs ih =>
    exact sameShape_trans (backwardStep_sameShape h c) (ih (backwardStep h c))

/-- A heap holding one Power node: base 3.0 at address 0, exponent 2.0 at
address 1, and the Power node at address 2 carrying gradient 5. -/
def hPow : Heap :=
  [(0, ⟨3, 0, [], Op.leaf⟩), (1, ⟨2, 0, [], Op.leaf⟩),
   (2, ⟨9, 5, [0, 1], Op.pow⟩)]

/- ------------------------------------------------------------------
The claims.
------------------------------------------------------------------ -/

/-- C1: refuted on the code.  The claim says the visited check is keyed
by exact node identity, never by a bounded hash, so no reachable node is
skipped.  In the source, `build_topo` keys `visited` by
`(long)v % 100`.  On the heap `hC1`, whose two nodes live at addresses
105 and 5 (congruent mod 100), the leaf at address 5 is reachable from
the root 105 but is never emitted: marking the root sets `visited[5]`,
so the child at address 5 is taken for already visited and skipped. -/
theorem C1_bounded_hash_skips_reachable_node :
    Reach hC1 105 5 ∧
    (buildTopoFuel 101 hC1 105 ⟨[], []⟩).topo = [105] ∧
    5 ∉ (buildTopoFuel 101 hC1 105 ⟨[], []⟩).topo := by
  refine ⟨Reach.step (⟨1, 0, [5], Op.relu⟩ : Value) rfl ?_ (Reach.refl 5),
    by decide, by decide⟩
  simp

/-- C2: for the spec §8 graph `rectify(add(multiply(a,b), power(c,e)))`
with leaves a=2.0, b=3.0, c=-2.0, e=2.0 (addresses 0..3, root at 7), the
root's value is 10.0 and after `backward` the gradients are
a ↦ 3.0, b ↦ 2.0, c ↦ -4.0, e ↦ 0.0. -/
theorem C2_forward_and_gradient_values :
    dataD hC2 7 = 10 ∧
    gradD (backward hC2 7) 0 = 3 ∧
    gradD (backward hC2 7) 1 = 2 ∧
    gradD (backward hC2 7) 2 = -4 ∧
    gradD (backward hC2 7) 3 = 0 := by
  norm_num [hC2, gC2, new_value, add, mul, my_pow, relu, mkNode, dataD,
    gradD, hget, hset, cpow, backward, buildTopoFuel, backwardStep,
    childrenOf, setGrad, bumpGrad]

/-- C3: executing the backward rule of a Power node with operands
`[b, e]` increments the base operand's gradient by
`e.value * base.value ^ (e.value - 1) * g` where `g` is the Power node's
gradient, and leaves every other node — in particular the exponent
operand, whenever it is a different node than the base — untouched. -/
theorem C3_pow_backward_rule (h : Heap) (a b e : Nat) (v vb : Value)
    (hv : hget h a = some v) (hop : v.op = Op.pow) (hch : v.children = [b, e])
    (hb : hget h b = some vb) :
    hget (backwardStep h a) b =
      some { vb with grad :=
        vb.grad + (dataD h e * cpow vb.data (dataD h e - 1)) * v.grad } ∧
    ∀ c, c ≠ b → hget (backwardStep h a) c = hget h c := by
  unfold backwardStep
  simp only [hv, hop, hch]
  have hdb : dataD h b = vb.data := by simp [dataD, hb]
  have hga : gradD h a = v.grad := by simp [gradD, hv]
  rw [hdb, hga]
  unfold bumpGrad
  rw [hb]
  constructor
  · exact hget_hset_self h b _ vb hb
  · intro c hc
    exact hget_hset_ne h b c _ hc

/-- Witness for C3 on the concrete heap `hPow`. -/
theorem C3_pow_backward_rule_witness :
    hget (backwardStep hPow 2) 0 =
      some { (⟨3, 0, [], Op.leaf⟩ : Value) with grad :=
        (0 : ℚ) + (dataD hPow 1 * cpow 3 (dataD hPow 1 - 1)) * 5 } ∧
    ∀ c, c ≠ 0 → hget (backwardStep hPow 2) c = hget hPow c :=
  C3_pow_backward_rule hPow 2 0 1 ⟨9, 5, [0, 1], Op.pow⟩ ⟨3, 0, [], Op.leaf⟩
    rfl rfl rfl rfl

/-- C4, counterexample to the claim as stated: at a concrete failed node
allocation, `new_value` terminates the process with exit code 1 instead
of propagating an allocation failure to its caller. -/
theorem C4_alloc_failure_exits_process :
    new_value_alloc false true 2 [] = NewValueResult.exited 1 := rfl

/-- C4, amended: on any allocation failure (of the node itself or of its
children array) `new_value` exits the process with code 1, producing no
node; only when both allocations succeed is a node (zero gradient, NULL
backward pointer) returned. -/
theorem C4_new_value_outcomes (d : ℚ) (children : List Nat)
    (hne : children ≠ []) :
    new_value_alloc false true d children = NewValueResult.exited 1 ∧
    new_value_alloc true false d children = NewValueResult.exited 1 ∧
    new_value_alloc true true d children =
      NewValueResult.node ⟨d, 0, children, Op.leaf⟩ ∧
    new_value_alloc false true d [] = NewValueResult.exited 1 ∧
    new_value_alloc true true d [] =
      NewValueResult.node ⟨d, 0, [], Op.leaf⟩ := by
  have hlen : ¬children.length = 0 := fun hz => hne (List.length_eq_zero.mp hz)
  refine ⟨rfl, ?_, ?_, rfl, rfl⟩
  · simp [new_value_alloc, hlen]
  · simp [new_value_alloc, hlen]

/-- Witness for C4 at d = 3.0 with one child. -/
theorem C4_new_value_outcomes_witness :
    new_value_alloc false true 3 [0] = NewValueResult.exited 1 ∧
    new_value_alloc true false 3 [0] = NewValueResult.exited 1 ∧
    new_value_alloc true true 3 [0] =
      NewValueResult.node ⟨3, 0, [0], Op.leaf⟩ ∧
    new_value_alloc false true 3 [] = NewValueResult.exited 1 ∧
    new_value_alloc true true 3 [] =
      NewValueResult.node ⟨3, 0, [], Op.leaf⟩ :=
  C4_new_value_outcomes 3 [0] (by simp)

/-- Divergence of the gradient-reset traversal started at `a`: for every
recursion-depth bound the traversal runs out of fuel instead of
completing — i.e. the C recursion is unbounded there. -/
def zeroGradDiverges (h : Heap) (a : Nat) : Prop :=
  ∀ n, zeroGradFuel n h a = none

/-- C5, counterexample to the claim as stated: on the two-node cycle
`hCyc` the gradient-reset traversal never terminates — for every
recursion-depth bound it runs out of fuel rather than detecting the
cycle or completing — refuting "surfaced as an explicit CyclicGraphError
rather than causing unbounded recursion". -/
theorem C5_cycle_traversal_diverges : zeroGradDiverges hCyc 0 :=
  fun n => (cyc_diverges_aux n hCyc rfl rfl).1

/-- C5, amended: the code performs no cycle detection at all.
`build_topo` on the cycle terminates silently with a normal (partial)
order and no error signal of any kind — its bounded visited marks stop
the recursion — while `zero_grad_graph` recurses without bound on the
same cycle. -/
theorem C5_no_cycle_detection :
    (buildTopoFuel 101 hCyc 0 ⟨[], []⟩).topo = [1, 0] ∧
    zeroGradDiverges hCyc 1 :=
  ⟨by decide, fun n => (cyc_diverges_aux n hCyc rfl rfl).2⟩

/-- C6, counterexample to the claim as stated: `zero_grad_graph` has no
visited set.  On `y = add(x, x)` (heap `hC8`) the traversal from y
visits x once per operand edge — visit order [y, x, x], so the shared
node is visited twice, not "at most once". -/
theorem C6_shared_node_visited_twice :
    (zeroGradT 3 hC8 1).map (fun p => p.2) = some [1, 0, 0] ∧
    (zeroGradT 3 hC8 1).map (fun p => p.2.count 0) = some 2 := by
  constructor <;> decide

/-- C6, amended: `zero_grad_graph` traverses without deduplication —
a shared node is visited once per path (see the counterexample) — but it
does set gradient = 0.0 on every node reachable from the root: on any
acyclic (ordered) heap the traversal terminates and every reachable
node's gradient is 0.0 afterwards. -/
theorem C6_zero_grad_zeroes_reachable (h : Heap) (a : Nat)
    (ho : Ordered h) :
    ∃ h', zeroGradFuel (a + 1) h a = some h' ∧
      ∀ b, Reach h a b → ∀ w, hget h' b = some w → w.grad = 0 := by
  obtain ⟨h', e1, _, z1⟩ := (zg_main (a + 1)).1 h a ho (Nat.lt_succ_self a)
  exact ⟨h', e1, z1⟩

/-- Witness for C6 on the shared-operand heap `hC8`. -/
theorem C6_zero_grad_zeroes_reachable_witness :
    ∃ h', zeroGradFuel 2 hC8 1 = some h' ∧
      ∀ b, Reach hC8 1 b → ∀ w, hget h' b = some w → w.grad = 0 :=
  C6_zero_grad_zeroes_reachable hC8 1 (ordered_of_orderedb (by decide))

/-- C7: gradient reset is idempotent.  On any acyclic (ordered) heap, in
any gradient state (in particular after any sequence of backward
passes), `zero_grad_graph` terminates leaving every reachable gradient
0.0, and running it again terminates and leaves every reachable gradient
0.0, with no error. -/
theorem C7_reset_idempotent (h : Heap) (a : Nat) (ho : Ordered h) :
    ∃ h' h'', zeroGradFuel (a + 1) h a = some h' ∧
      zeroGradFuel (a + 1) h' a = some h'' ∧
      (∀ b, Reach h a b → ∀ w, hget h' b = some w → w.grad = 0) ∧
      (∀ b, Reach h a b → ∀ w, hget h'' b = some w → w.grad = 0) := by
  obtain ⟨h', e1, zw1, z1⟩ := (zg_main (a + 1)).1 h a ho (Nat.lt_succ_self a)
  have ho' : Ordered h' := ordered_sameShape (zeroWrite_sameShape zw1) ho
  obtain ⟨h'', e2, _, z2⟩ := (zg_main (a + 1)).1 h' a ho' (Nat.lt_succ_self a)
  refine ⟨h', h'', e1, e2, z1, ?_⟩
  intro b hr w hw
  exact z2 b (reach_sameShape (zeroWrite_sameShape zw1) hr) w hw

/-- Witness for C7 on the eight-node graph `hC2` rooted at 7, after a
backward pass. -/
theorem C7_reset_idempotent_witness :
    ∃ h' h'', zeroGradFuel 8 hC2 7 = some h' ∧
      zeroGradFuel 8 h' 7 = some h'' ∧
      (∀ b, Reach hC2 7 b → ∀ w, hget h' b = some w → w.grad = 0) ∧
      (∀ b, Reach hC2 7 b → ∀ w, hget h'' b = some w → w.grad = 0) :=
  C7_reset_idempotent hC2 7 (ordered_of_orderedb (by decide))

/-- C8: for leaf x=5.0 and `y = add(x, x)` (heap `hC8`, x at 0, y at 1),
the sorter emits the shared node exactly once (order [x, y]), and after
`backward(y)` the gradient of x is 2.0 — both uses contribute
additively. -/
theorem C8_shared_operand_gradient :
    (buildTopoFuel 101 hC8 1 ⟨[], []⟩).topo = [0, 1] ∧
    gradD (backward hC8 1) 0 = 2 := by
  constructor
  · decide
  · norm_num [hC8, gC8, new_value, add, mkNode, dataD, gradD, hget, hset,
      backward, buildTopoFuel, backwardStep, childrenOf, setGrad, bumpGrad]

/-- C9: for leaf x=-3.0 and `y = rectify(x)` (heap `hC9`, x at 0, y at
1), value(y) = 0.0 and after `backward(y)` the gradient of x is 0.0 —
the sub-gradient at the kink is 0. -/
theorem C9_relu_nonpositive_gradient :
    dataD hC9 1 = 0 ∧ gradD (backward hC9 1) 0 = 0 := by
  constructor
  · norm_num [hC9, gC9, new_value, relu, mkNode, dataD, hget]
  · norm_num [hC9, gC9, new_value, relu, mkNode, dataD, gradD, hget, hset,
      backward, buildTopoFuel, backwardStep, childrenOf, setGrad, bumpGrad]

/-- C10, counterexample to the claim as stated: on the depth-2 graph
`f = relu(add(x, x))` with x=5.0 (heap `hC10`, root 2, leaf 0), one
backward pass gives gradient(x) = 2.0, but a second backward pass
without reset gives 6.0 — leftover gradients are accumulated into, yet
the result is NOT twice the single-pass value (contributions compound
through the interior node's already-accumulated gradient). -/
theorem C10_second_backward_not_double :
    gradD (backward hC10 2) 0 = 2 ∧
    gradD (backward (backward hC10 2) 2) 0 = 6 ∧
    gradD (backward (backward hC10 2) 2) 0 ≠
      2 * gradD (backward hC10 2) 0 := by
  have h1 : gradD (backward hC10 2) 0 = 2 := by
    norm_num [hC10, gC10, new_value, add, relu, mkNode, dataD, gradD, hget,
      hset, backward, buildTopoFuel, backwardStep, childrenOf, setGrad,
      bumpGrad]
  have h2 : gradD (backward (backward hC10 2) 2) 0 = 6 := by
    norm_num [hC10, gC10, new_value, add, relu, mkNode, dataD, gradD, hget,
      hset, backward, buildTopoFuel, backwardStep, childrenOf, setGrad,
      bumpGrad]
  refine ⟨h1, h2, ?_⟩
  rw [h1, h2]
  norm_num

/-- C10, amended: `backward(root)` mutates only gradient fields — every
node's value, operand list and operator binding are unchanged on every
heap — and leftover gradients are added to rather than cleared, but a
second un-reset backward pass does not in general yield twice the
single-pass gradients. -/
theorem C10_backward_frame (h : Heap) (root a : Nat) :
    (hget (backward h root) a).map shape = (hget h a).map shape := by
  have hs : SameShape h (backward h root) := by
    unfold backward
    exact sameShape_trans (setGrad_sameShape h root 1)
      (foldl_backwardStep_sameShape _ _)
  exact hs a

end CG
